import Mathlib

/-!
Verification of the keymap core of the obsidian-spacekeys plugin:
the key-code grammar (parseKey / unparseKey), the keymap tree data model
(KeymapGroup and friends), the YAML-to-keymap parser, and the Markdown
fenced-code-block extraction.

Strings from the TypeScript source are embedded as lists of characters
(`Str`).  JavaScript's `toLowerCase` is modelled by the ASCII simple case
mapping (`Char.toLower`), which agrees with JavaScript on every string the
key-code grammar accepts.
-/

/-- Strings of the embedded program, as lists of characters. -/
abbrev Str := List Char

/-- ASCII lowering of a whole string; models String.prototype.toLowerCase
restricted to the ASCII range. -/
def strToLower (s : Str) : Str := s.map Char.toLower

/-- Characters treated as line terminators by JavaScript regular expressions
(what `.` refuses to match and what `^` in multiline mode matches after):
LF, CR, LINE SEPARATOR, PARAGRAPH SEPARATOR. -/
def isLineTerm (c : Char) : Bool :=
  c = '\n' || c = '\r' || c = Char.ofNat 0x2028 || c = Char.ofNat 0x2029

/-- Characters removed by String.prototype.trim (ASCII and the common
Unicode cases). -/
def jsIsWhite (c : Char) : Bool :=
  c = ' ' || c = '\t' || c = '\n' || c = '\r' ||
  c = Char.ofNat 0x0b || c = Char.ofNat 0x0c ||
  c = Char.ofNat 0xa0 || c = Char.ofNat 0x2028 || c = Char.ofNat 0x2029 ||
  c = Char.ofNat 0xfeff

/-- Models String.prototype.trim. -/
def jsTrim (s : Str) : Str :=
  ((s.dropWhile jsIsWhite).reverse.dropWhile jsIsWhite).reverse

/-- Models String.prototype.indexOf for a single-character search string
(returns the index of the first occurrence). -/
def indexOfChar : Str → Char → Option Nat
  | [], _ => none
  | x :: xs, c => if x = c then some 0 else (indexOfChar xs c).map (· + 1)

/-- Models String.prototype.indexOf for a general search string: the first
position at which `pat` occurs as a contiguous substring. -/
def indexOfStr : Str → Str → Option Nat
  | [], pat => if pat = [] then some 0 else none
  | x :: xs, pat =>
    if pat.isPrefixOf (x :: xs) then some 0 else (indexOfStr xs pat).map (· + 1)

/-- util.ts `splitFirst` (string-delimiter branch, the one the keymap parser
uses): split a string by the first instance of a delimiter, if it exists. -/
def splitFirst (s : Str) (delim : Str) : Str × Option Str :=
  match indexOfStr s delim with
  | none => (s, none)
  | some pos => (s.take pos, some (s.drop (pos + delim.length)))

/-- keys.ts `KeyModifiers`: the four modifier flags. -/
structure KeyModifiers where
  ctrl : Bool
  shift : Bool
  alt : Bool
  meta : Bool
deriving DecidableEq

/-- keys.ts `KeyPress`: a single key press (base key plus modifier flags).
The class constructor defaults absent modifier flags to false; we always
construct with all four flags explicit. -/
structure KeyPress where
  key : Str
  ctrl : Bool
  shift : Bool
  alt : Bool
  meta : Bool
deriving DecidableEq

/-- keys.ts `KEYCODE_REGEXP = /^(.|[a-z]+|f[1-9]|f1[0-2])$/i`, split into its
three alternatives.  `.` matches any single character except a line
terminator; `[a-z]+` with the `i` flag is a nonempty run of ASCII letters. -/
def isAsciiLetter (c : Char) : Bool :=
  ('a' ≤ c && c ≤ 'z') || ('A' ≤ c && c ≤ 'Z')

/-- The `f[1-9]` and `f1[0-2]` alternatives of KEYCODE_REGEXP
(case-insensitive). -/
def fkeyTest : Str → Bool
  | [f, d] => (f = 'f' || f = 'F') && ('1' ≤ d && d ≤ '9')
  | [f, o, d] => (f = 'f' || f = 'F') && o = '1' && ('0' ≤ d && d ≤ '2')
  | _ => false

/-- `KEYCODE_REGEXP.test key`. -/
def keycodeTest (k : Str) : Bool :=
  (match k with
   | [c] => !isLineTerm c
   | _ => false) ||
  (!k.isEmpty && k.all isAsciiLetter) || fkeyTest k

/-- keys.ts `shouldIgnoreShift`: ignore the shift modifier if the key code is
a single character other than space. -/
def shouldIgnoreShift (key : Str) : Bool :=
  key.length = 1 && key ≠ [' ']

/-- keymapfile.ts `KEY_ALIASES`: aliases applied when parsing key codes. -/
def keyAliases (k : Str) : Option Str :=
  if k = "space".data then some [' ']
  else if k = "spc".data then some [' ']
  else if k = "up".data then some "arrowup".data
  else if k = "down".data then some "arrowdown".data
  else if k = "left".data then some "arrowleft".data
  else if k = "right".data then some "arrowright".data
  else none

/-- keymapfile.ts `REVERSE_ALIASES`: preferred key code aliases for
unparseKey. -/
def reverseAliases (k : Str) : Option Str :=
  if k = [' '] then some "spc".data
  else if k = "arrowup".data then some "up".data
  else if k = "arrowdown".data then some "down".data
  else if k = "arrowleft".data then some "left".data
  else if k = "arrowright".data then some "right".data
  else none

/-- Result type of parseKey (`ParseKeySuccess | ParseKeyError`). -/
inductive ParseKeyResult where
  | success (key : KeyPress)
  | error (msg : Str)
deriving DecidableEq

/-- Whether a ParseKeyResult is the failure variant (`success: false`). -/
def ParseKeyResult.isErr : ParseKeyResult → Bool
  | .success _ => false
  | .error _ => true

/-- The message `'Invalid key code: ' + JSON.stringify(s)`.  JSON.stringify
is modelled as wrapping in double quotes (none of the claims exercise its
escaping). -/
def invalidKeyCodeMsg (s : Str) : Str :=
  "Invalid key code: ".data ++ '"' :: (s ++ ['"'])

/-- The message `'Invalid modifier code: ' + modstr[i]` (the offending
character, in its original case). -/
def invalidModifierMsg (c : Char) : Str :=
  "Invalid modifier code: ".data ++ [c]

/-- The modifier-processing loop of parseKey: walk the modifier letters,
lowercasing each; set the corresponding flag, or fail with the original
(offending) character. -/
def parseMods : Str → KeyModifiers → Except Char KeyModifiers
  | [], m => .ok m
  | ch :: rest, m =>
    let c := Char.toLower ch
    if c = 'c' then parseMods rest ⟨true, m.shift, m.alt, m.meta⟩
    else if c = 's' then parseMods rest ⟨m.ctrl, true, m.alt, m.meta⟩
    else if c = 'a' then parseMods rest ⟨m.ctrl, m.shift, true, m.meta⟩
    else if c = 'm' then parseMods rest ⟨m.ctrl, m.shift, m.alt, true⟩
    else .error ch

/-- The tail of parseKey after modifier processing (keymapfile.ts lines
502-515): normalize case if not a single symbol, apply aliases, test against
KEYCODE_REGEXP, and clear shift when shouldIgnoreShift holds.  `s` is the
whole original input, used only for the base error message. -/
def finishKey (s key0 : Str) (mods : KeyModifiers) : ParseKeyResult :=
  let key1 := if key0.length > 1 then strToLower key0 else key0
  let key2 := (keyAliases key1).getD key1
  if keycodeTest key2 then
    if shouldIgnoreShift key2 then
      .success ⟨key2, mods.ctrl, false, mods.alt, mods.meta⟩
    else
      .success ⟨key2, mods.ctrl, mods.shift, mods.alt, mods.meta⟩
  else .error (invalidKeyCodeMsg s)

/-- keymapfile.ts `parseKey`: parse a key code. -/
def parseKey (s : Str) : ParseKeyResult :=
  if s = [] then .error (invalidKeyCodeMsg s)
  else if s = ['-'] then .success ⟨['-'], false, false, false, false⟩
  else
    match indexOfChar s '-' with
    | some dashPos =>
      let modstr := s.take dashPos
      let keyPart := strToLower (s.drop (dashPos + 1))
      if keyPart = [] ∨ modstr = [] then .error (invalidKeyCodeMsg s)
      else
        match parseMods modstr ⟨false, false, false, false⟩ with
        | .error c => .error (invalidModifierMsg c)
        | .ok mods => finishKey s keyPart mods
    | none => finishKey s s ⟨false, false, false, false⟩

/-- keymapfile.ts `unparseKey`: get a key code string from a KeyPress. -/
def unparseKey (kp : KeyPress) : Str :=
  let key := (reverseAliases kp.key).getD kp.key
  let modstr :=
    (if kp.ctrl then ['c'] else []) ++ (if kp.shift then ['s'] else []) ++
    (if kp.alt then ['a'] else []) ++ (if kp.meta then ['m'] else [])
  if modstr = [] then key else modstr ++ '-' :: key

/-- keys.ts `KeyPress.fromEvent`: build a KeyPress from a KeyboardEvent
(here: its key string and four modifier flags), lowercasing multi-character
keys and clearing shift when shouldIgnoreShift holds. -/
def KeyPress.fromEvent (key : Str) (ctrl shift alt meta : Bool) : KeyPress :=
  let k := if key.length > 1 then strToLower key else key
  if shouldIgnoreShift k then ⟨k, ctrl, false, alt, meta⟩
  else ⟨k, ctrl, shift, alt, meta⟩

/-!
## The keymap tree data model (keys.ts)

`KeymapItem` is the discriminated union of groups, command references and
file references.  A group's children are an ordered list of
(KeyPress, KeymapItem) pairs; the source compares keys with
`KeyPress.equals`, which is structural equality.
-/

/-- keys.ts `KeymapItem = KeymapGroup | KeymapCommand | KeymapFile`.  The
group variant inlines the KeymapGroup class fields (description and ordered
children list). -/
inductive KeymapItem where
  | group (description : Option Str) (children : List (KeyPress × KeymapItem))
  | command (command_id : Str) (description : Option Str)
  | fileref (file_path : Str) (description : Option Str)

/-- keys.ts `KeymapGroup.getChild`: first child whose key equals the given
key press, if any. -/
def getChild : List (KeyPress × KeymapItem) → KeyPress → Option KeymapItem
  | [], _ => none
  | (k', it) :: rest, k => if k' = k then some it else getChild rest k

/-- keys.ts `KeymapGroup.find`: walk a key sequence starting at this item.
If a non-group is reached with keys remaining, return null when strict,
else the item; an unassigned key returns null; an exhausted sequence
returns the current item. -/
def KeymapItem.find : KeymapItem → List KeyPress → Bool → Option KeymapItem
  | it, [], _ => some it
  | .group _ ch, k :: rest, strict =>
    (match getChild ch k with
     | none => none
     | some c => c.find rest strict)
  | it, _ :: _, strict => if strict then none else some it

mutual

/-- keys.ts `KeymapGroup.walk` / `_walk`: depth-first pre-order traversal,
returning the visited (item, key-sequence) pairs in callback order.  A group
emits itself first and then its children's traversals; a non-group child
emits a single pair. -/
def walkItem : KeymapItem → List KeyPress → List (KeymapItem × List KeyPress)
  | .group d ch, keys => (.group d ch, keys) :: walkChildren ch keys
  | .command cid d, keys => [(.command cid d, keys)]
  | .fileref f d, keys => [(.fileref f d, keys)]

/-- Traversal of a children list in order, each child visited at
`keys ++ [its key]`.  (For non-group children `walkItem` emits exactly the
single callback call the source makes.) -/
def walkChildren : List (KeyPress × KeymapItem) → List KeyPress →
    List (KeymapItem × List KeyPress)
  | [], _ => []
  | (k, it) :: rest, keys => walkItem it (keys ++ [k]) ++ walkChildren rest keys

end

/-- `(map[cid] ??= []).push(keys)`: append a key sequence to the entry for a
command id in an insertion-ordered record, creating the entry at the end if
absent. -/
def pushSeq : List (Str × List (List KeyPress)) → Str → List KeyPress →
    List (Str × List (List KeyPress))
  | [], c, ks => [(c, [ks])]
  | (c', l) :: rest, c, ks =>
    if c' = c then (c', l ++ [ks]) :: rest else (c', l) :: pushSeq rest c ks

/-- The walk callback of assignedCommands: record the key sequence of every
KeymapCommand under its command id. -/
def accStep (m : List (Str × List (List KeyPress)))
    (p : KeymapItem × List KeyPress) : List (Str × List (List KeyPress)) :=
  match p.1 with
  | .command cid _ => pushSeq m cid p.2
  | _ => m

/-- keys.ts `KeymapGroup.assignedCommands`: mapping from command ids to the
key sequences assigned to them, built by walking the tree. -/
def assignedCommands (it : KeymapItem) : List (Str × List (List KeyPress)) :=
  (walkItem it []).foldl accStep []

/-- Lookup in the insertion-ordered record built by `assignedCommands`. -/
def lookupCmd : List (Str × List (List KeyPress)) → Str →
    Option (List (List KeyPress))
  | [], _ => none
  | (c', l) :: rest, c => if c' = c then some l else lookupCmd rest c

/-- Whether a key occurs among the keys of a children list. -/
def hasKeyIn : List (KeyPress × KeymapItem) → KeyPress → Bool
  | [], _ => false
  | (k', _) :: rest, k => k' = k || hasKeyIn rest k

/-- Pairwise distinctness of the keys of a children list. -/
def wfKeys : List (KeyPress × KeymapItem) → Bool
  | [] => true
  | (k, _) :: rest => !hasKeyIn rest k && wfKeys rest

mutual

/-- The invariant maintained by setChild/removeChild: every group in the
tree has at most one child per structurally-equal KeyPress. -/
def wfItem : KeymapItem → Bool
  | .group _ ch => wfKeys ch && wfChildren ch
  | .command _ _ => true
  | .fileref _ _ => true

/-- `wfItem` for every child item of a children list. -/
def wfChildren : List (KeyPress × KeymapItem) → Bool
  | [] => true
  | (_, it) :: rest => wfItem it && wfChildren rest

end

/-!
## The YAML-to-keymap parser (keymapfile.ts)

Parsed YAML data is a tree of objects, arrays, strings, numbers, booleans
and null.  JavaScript objects are embedded as ordered association lists
(key lookup takes the first matching key; iteration follows list order,
which models the object's natural key order).

The parser mutates KeymapGroup objects in place (setChild / removeChild /
description assignment), so to state the frame property of the "extend"
feature, group / command / file objects live on an explicit heap and the
parser threads the heap through every step.  References are indices into
the heap; an allocation appends; thrown KeymapParseErrors are the `Except`
error variant, and the heap at the moment of the throw is kept (mirroring
an exception escaping mutating code).
-/

/-- The `YAMLData` type of keymapfile.ts. -/
inductive YAMLData where
  | str (s : Str)
  | num (n : Int)
  | bool (b : Bool)
  | null
  | arr (l : List YAMLData)
  | obj (entries : List (Str × YAMLData))

/-- `value === null`. -/
def YAMLData.isNull : YAMLData → Bool
  | .null => true
  | _ => false

/-- `typeof value === 'string'`. -/
def YAMLData.isStr : YAMLData → Bool
  | .str _ => true
  | _ => false

/-- Property access on a JavaScript object: the value at the first matching
key, if the key is present. -/
def lookupY : List (Str × YAMLData) → Str → Option YAMLData
  | [], _ => none
  | (k, v) :: rest, key => if k = key then some v else lookupY rest key

/-- `key in data`. -/
def hasKeyY (o : List (Str × YAMLData)) (k : Str) : Bool :=
  (lookupY o k).isSome

/-- keymapfile.ts `ParsePath` segments: property names or array indices. -/
inductive PathSeg where
  | field (s : Str)
  | index (n : Nat)

/-- Errors escaping the parser: `KeymapParseError` (message, path, and the
offending data value, when one was attached), or an `AssertionError` from
util.ts assert. -/
inductive PError where
  | parse (msg : Str) (path : List PathSeg) (data : Option YAMLData)
  | assertionFailed

/-- A heap object: one KeymapGroup / KeymapCommand / KeymapFile instance.
Groups hold references (heap indices) to their children. -/
inductive HObj where
  | group (description : Option Str) (children : List (KeyPress × Nat))
  | command (command_id : Str) (description : Option Str)
  | fileref (file_path : Str) (description : Option Str)

/-- The object heap.  A reference is an index into this list. -/
abbrev Heap := List HObj

/-- Read a reference (all references produced by the parser are valid; the
default is never hit). -/
def readH (h : Heap) (r : Nat) : HObj := h.getD r (.group none [])

/-- Overwrite the object at a reference. -/
def writeH (h : Heap) (r : Nat) (o : HObj) : Heap := h.set r o

/-- Allocate a new object (`new ...`), returning its reference. -/
def allocH (h : Heap) (o : HObj) : Nat × Heap := (h.length, h ++ [o])

/-- keys.ts `KeymapGroup.setChild` on a children list: replace the first
pair with an equal key in place, else append. -/
def setPairs : List (KeyPress × Nat) → KeyPress → Nat → List (KeyPress × Nat)
  | [], k, r => [(k, r)]
  | (k', r') :: rest, k, r =>
    if k' = k then (k, r) :: rest else (k', r') :: setPairs rest k r

/-- keys.ts `KeymapGroup.removeChild` on a children list: splice out the
first pair with an equal key, if any. -/
def removePairs : List (KeyPress × Nat) → KeyPress → List (KeyPress × Nat)
  | [], _ => []
  | (k', r') :: rest, k => if k' = k then rest else (k', r') :: removePairs rest k

/-- keys.ts `KeymapGroup.getChild` on a children list of references. -/
def getPairs : List (KeyPress × Nat) → KeyPress → Option Nat
  | [], _ => none
  | (k', r') :: rest, k => if k' = k then some r' else getPairs rest k

/-- `group.setChild(key, item)` on the heap (the parser ignores the returned
previous item). -/
def setChildH (h : Heap) (g : Nat) (k : KeyPress) (item : Nat) : Heap :=
  match readH h g with
  | .group d ch => writeH h g (.group d (setPairs ch k item))
  | _ => h

/-- `group.removeChild(key)` on the heap (returned item ignored). -/
def removeChildH (h : Heap) (g : Nat) (k : KeyPress) : Heap :=
  match readH h g with
  | .group d ch => writeH h g (.group d (removePairs ch k))
  | _ => h

/-- `group.getChild(key)` on the heap. -/
def getChildH (h : Heap) (g : Nat) (k : KeyPress) : Option Nat :=
  match readH h g with
  | .group _ ch => getPairs ch k
  | _ => none

/-- `item.description = d`. -/
def setDescH (h : Heap) (r : Nat) (d : Option Str) : Heap :=
  writeH h r
    (match readH h r with
     | .group _ ch => .group d ch
     | .command c _ => .command c d
     | .fileref f _ => .fileref f d)

/-- keys.ts `KeymapGroup.copy`: a new group with the same description and
the same children pairs (child items shared by reference). -/
def copyH (h : Heap) (r : Nat) : Nat × Heap :=
  match readH h r with
  | .group d ch => allocH h (.group d ch)
  | o => allocH h o

/-- The mutual-exclusion error message of keymapItemFromYAML, naming all
three alternative properties. -/
def exactlyOneMsg : Str :=
  ("Object must have exactly one of the following properties: " ++
   "\"items\", \"command\", or \"file\"").data

/-- The `if ("description" in data)` tail of keymapItemFromYAML: validate the
description value (string or explicit null) and assign
`data.description || null` to the freshly built item. -/
def descStep (o : List (Str × YAMLData)) (path : List PathSeg) (r : Nat)
    (h : Heap) : Except PError Nat × Heap :=
  match lookupY o "description".data with
  | none => (.ok r, h)
  | some (.str ds) => (.ok r, setDescH h r (if ds = [] then none else some ds))
  | some .null => (.ok r, setDescH h r none)
  | some v =>
    (.error (.parse "Expected string or null".data
      (path ++ [.field "description".data]) (some v)), h)

/-- The `extendChild` computation of the items loop: the existing child of
the working group at the key, if that child is itself a group. -/
def extendChildOf (h : Heap) (g : Nat) (key : KeyPress) : Option Nat :=
  match getChildH h g key with
  | some r =>
    match readH h r with
    | .group _ _ => some r
    | _ => none
  | none => none

/-- `sizeOf` of a value found in an object is below the object's. -/
theorem sizeOf_lookupY {o : List (Str × YAMLData)} {k : Str} {v : YAMLData}
    (h : lookupY o k = some v) : sizeOf v < sizeOf o := by
  induction o with
  | nil => simp [lookupY] at h
  | cons p rest ih =>
    obtain ⟨k', v'⟩ := p
    simp only [lookupY] at h
    split at h
    · cases h
      simp
      omega
    · have := ih h
      simp
      omega

mutual

/-- keymapfile.ts `keymapItemFromYAML`: parse a keymap item (command / file /
group) from YAML data, threading the heap. -/
def keymapItemFromYAML (data : YAMLData) (path : List PathSeg)
    (extend : Option Nat) (h : Heap) : Except PError Nat × Heap :=
  match data with
  | .str s =>
    if s = [] then
      (.error (.parse "Empty string not allowed".data path (some data)), h)
    else
      let p := splitFirst (jsTrim s) [' ']
      let desc : Option Str :=
        match p.2 with
        | none => none
        | some d => if jsTrim d = [] then none else some (jsTrim d)
      let a := allocH h (.command p.1 desc)
      (.ok a.1, a.2)
  | .obj o =>
    let isCommand := hasKeyY o "command".data
    let isFile := hasKeyY o "file".data
    let isGroup := hasKeyY o "items".data
    if (cond isCommand 1 0) + (cond isFile 1 0) + (cond isGroup 1 0) ≠ 1 then
      (.error (.parse exactlyOneMsg path (some data)), h)
    else if isCommand then
      match lookupY o "command".data with
      | some (.str cs) =>
        if cs = [] then
          (.error (.parse "Command ID cannot be empty".data
            (path ++ [.field "command".data]) (some (.str cs))), h)
        else
          let a := allocH h (.command cs none)
          descStep o path a.1 a.2
      | v =>
        (.error (.parse "Expected string".data
          (path ++ [.field "command".data]) v), h)
    else if isFile then
      -- NB the source attaches `data.command` (not data.file) to both file
      -- errors; with `file` present and `command` absent that is null.
      match lookupY o "file".data with
      | some (.str fs) =>
        if fs = [] then
          (.error (.parse "File name cannot be empty".data
            (path ++ [.field "file".data]) (lookupY o "command".data)), h)
        else
          let a := allocH h (.fileref fs none)
          descStep o path a.1 a.2
      | _ =>
        (.error (.parse "Expected string".data
          (path ++ [.field "file".data]) (lookupY o "command".data)), h)
    else if isGroup then
      match keymapGroupFromYAML o path extend h with
      | (.ok r, h1) => descStep o path r h1
      | (.error e, h1) => (.error e, h1)
    else
      -- assertNever(): the exclusion check above guarantees one branch ran
      (.error .assertionFailed, h)
  | .num n =>
    (.error (.parse "Expected string or object".data path (some (.num n))), h)
  | .bool b =>
    (.error (.parse "Expected string or object".data path (some (.bool b))), h)
  | .null =>
    (.error (.parse "Expected string or object".data path (some .null)), h)
  | .arr l =>
    (.error (.parse "Expected string or object".data path (some (.arr l))), h)
termination_by sizeOf data
decreasing_by
  simp_wf

/-- keymapfile.ts `keymapGroupFromYAML`: parse a keymap group from the
entries of a YAML object node, optionally extending an existing group. -/
def keymapGroupFromYAML (o : List (Str × YAMLData)) (path : List PathSeg)
    (extend : Option Nat) (h : Heap) : Except PError Nat × Heap :=
  match hit : lookupY o "items".data with
  | some (.obj entries) =>
    match lookupY o "clear".data with
    | some (.bool _) | none =>
      let clearTrue :=
        match lookupY o "clear".data with
        | some (.bool true) => true
        | _ => false
      let a :=
        match extend with
        | some e => if clearTrue then allocH h (.group none []) else copyH h e
        | none => allocH h (.group none [])
      processEntries entries (lookupY o "items".data) a.1 path a.2
    | some v =>
      (.error (.parse "Expected group.clear to be a bool".data
        (path ++ [.field "clear".data]) (some v)), h)
  | some .null =>
    -- null stands in for an empty items object: the for-in loop runs zero
    -- times, so this mirrors the entries = [] case
    match lookupY o "clear".data with
    | some (.bool _) | none =>
      let clearTrue :=
        match lookupY o "clear".data with
        | some (.bool true) => true
        | _ => false
      let a :=
        match extend with
        | some e => if clearTrue then allocH h (.group none []) else copyH h e
        | none => allocH h (.group none [])
      processEntries [] (lookupY o "items".data) a.1 path a.2
    | some v =>
      (.error (.parse "Expected group.clear to be a bool".data
        (path ++ [.field "clear".data]) (some v)), h)
  | _ =>
    -- note the source's `data.item` typo: the attached data is undefined
    (.error (.parse "Expected group.items to be an object".data
      (path ++ [.field "items".data]) none), h)
termination_by sizeOf o
decreasing_by
  all_goals
    have := sizeOf_lookupY hit
  all_goals
    simp_wf
  all_goals
    simp at this
  all_goals
    omega

/-- The `for (const keyStr in data.items)` loop of keymapGroupFromYAML:
parse each key, remove children mapped to null, extend existing child
groups, and set the parsed child.  `itemsData` is the whole items object,
attached to key-parse errors. -/
def processEntries (entries : List (Str × YAMLData))
    (itemsData : Option YAMLData) (g : Nat) (path : List PathSeg) (h : Heap) :
    Except PError Nat × Heap :=
  match entries with
  | [] => (.ok g, h)
  | (keyStr, value) :: rest =>
    match parseKey keyStr with
    | .error e =>
      (.error (.parse e (path ++ [.field "items".data]) itemsData), h)
    | .success key =>
      if value.isNull then
        processEntries rest itemsData g path (removeChildH h g key)
      else
        match keymapItemFromYAML value
            (path ++ [.field "items".data, .field keyStr])
            (extendChildOf h g key) h with
        | (.ok child, h1) =>
          processEntries rest itemsData g path (setChildH h1 g key child)
        | (.error e, h1) => (.error e, h1)
termination_by sizeOf entries
decreasing_by
  all_goals simp_wf <;> omega

end

/-- keymapfile.ts `keymapFromYAML`: require the root to be an object with an
`items` property, parse it, and assert the result is a group. -/
def keymapFromYAML (data : YAMLData) (extend : Option Nat) (h : Heap) :
    Except PError Nat × Heap :=
  match data with
  | .obj o =>
    if hasKeyY o "items".data then
      match keymapItemFromYAML (.obj o) [] extend h with
      | (.ok r, h1) =>
        (match readH h1 r with
         | .group _ _ => (.ok r, h1)
         | _ => (.error .assertionFailed, h1))
      | (.error e, h1) => (.error e, h1)
    else
      (.error (.parse "Expected \"items\" property".data [] (some data)), h)
  | .str s =>
    (.error (.parse "Root element not an object".data [] (some (.str s))), h)
  | .num n =>
    (.error (.parse "Root element not an object".data [] (some (.num n))), h)
  | .bool b =>
    (.error (.parse "Root element not an object".data [] (some (.bool b))), h)
  | .null =>
    (.error (.parse "Root element not an object".data [] (some .null)), h)
  | .arr l =>
    (.error (.parse "Root element not an object".data [] (some (.arr l))), h)

/-!
## Markdown fenced-block extraction (keymapfile.ts findCodeBlock)

`findCodeBlock` runs `lines.matchAll(/^```.*$/mg)`.  A match of that regex
is exactly a maximal line (a run of non-line-terminator characters starting
at offset 0 or just after a line terminator) whose first three characters
are backticks; the match spans the whole line.  We therefore decompose the
document into its (start offset, content) lines and keep the fence lines,
producing the same (index, end-offset) list the matchAll iteration visits.
-/

/-- The backtick character. -/
def btick : Char := Char.ofNat 96

/-- Decompose a document into (start offset, line content) pairs, one per
line; a line is a maximal run of non-line-terminator characters.  `start`
is the offset of the current line, `i` the current offset, `acc` the
reversed content of the current line. -/
def linesAux : Str → Nat → Nat → Str → List (Nat × Str)
  | [], start, _, acc => [(start, acc.reverse)]
  | c :: rest, start, i, acc =>
    if isLineTerm c then (start, acc.reverse) :: linesAux rest (i + 1) (i + 1) []
    else linesAux rest start (i + 1) (c :: acc)

/-- All lines of a document with their start offsets. -/
def linesOf (s : Str) : List (Nat × Str) := linesAux s 0 0 []

/-- The successive matches of `/^```.*$/mg` as (match index, match end)
pairs: the lines starting with three backticks. -/
def fenceMatchesOf (s : Str) : List (Nat × Nat) :=
  ((linesOf s).filter
    (fun p => [btick, btick, btick].isPrefixOf p.2)).map
    (fun p => (p.1, p.1 + p.2.length))

/-- keymapfile.ts `findCodeBlock`: iterate the fence matches; remember the
end of the first; on the second, return the text strictly between them.
The iteration asserts `match.index` is truthy, so a fence line starting at
offset 0 raises AssertionError. -/
def findCodeBlock (s : Str) : Except PError (Option Str) :=
  match fenceMatchesOf s with
  | [] => .ok none
  | (b1, e1) :: rest =>
    if b1 = 0 then .error .assertionFailed
    else
      match rest with
      | [] => .ok none
      | (b2, _) :: _ =>
        if b2 = 0 then .error .assertionFailed
        else .ok (some ((s.drop e1).take (b2 - e1)))

/-- keymapfile.ts `parseKeymapMD` up to the hand-off to parseKeymapYAML:
the extracted YAML text, or the error thrown before any YAML parsing.
(`if (!yaml)` is falsy both for null and for an empty extracted string.) -/
def parseKeymapMDYaml (s : Str) : Except PError Str :=
  match findCodeBlock s with
  | .error e => .error e
  | .ok none => .error (.parse "No code block found".data [] none)
  | .ok (some y) =>
    if y = [] then .error (.parse "No code block found".data [] none)
    else .ok y


/-!
## Helper lemmas
-/

/-- A successful finishKey result has shift cleared whenever
shouldIgnoreShift holds for the returned key. -/
theorem finishKey_success_shift {s k : Str} {m : KeyModifiers} {kp : KeyPress}
    (h : finishKey s k m = .success kp)
    (hig : shouldIgnoreShift kp.key = true) : kp.shift = false := by
  simp only [finishKey] at h
  split_ifs at h <;>
    first
      | (cases h; rfl)
      | (cases h; simp_all)

/-- A successful parseKey result has shift cleared whenever
shouldIgnoreShift holds for the returned key. -/
theorem parseKey_success_shift {s : Str} {kp : KeyPress}
    (h : parseKey s = .success kp) (hig : shouldIgnoreShift kp.key = true) :
    kp.shift = false := by
  simp only [parseKey] at h
  by_cases h1 : s = []
  · rw [if_pos h1] at h
    cases h
  · rw [if_neg h1] at h
    by_cases h2 : s = ['-']
    · rw [if_pos h2] at h
      cases h
      rfl
    · rw [if_neg h2] at h
      split at h
      · rename_i dashPos hidx
        by_cases h3 : strToLower (s.drop (dashPos + 1)) = [] ∨ s.take dashPos = []
        · rw [if_pos h3] at h
          cases h
        · rw [if_neg h3] at h
          split at h
          · cases h
          · exact finishKey_success_shift h hig
      · exact finishKey_success_shift h hig

/-- A KeyPress built from an event has shift cleared whenever
shouldIgnoreShift holds for its key. -/
theorem fromEvent_shift (key : Str) (c sh a m : Bool)
    (hig : shouldIgnoreShift (KeyPress.fromEvent key c sh a m).key = true) :
    (KeyPress.fromEvent key c sh a m).shift = false := by
  simp only [KeyPress.fromEvent] at hig ⊢
  by_cases hk : shouldIgnoreShift (if key.length > 1 then strToLower key else key) = true
  · rw [if_pos hk]
  · rw [if_neg hk] at hig ⊢
    simp only at hig
    exact absurd hig hk

/-!
## Frame lemmas for the heap-threading parser (claim C3)

`FrameOk h res h'` says a parser step takes heap `h` to `h'` without
touching any pre-existing cell, only growing the heap, and returns (on
success) a freshly allocated reference.  `FrameLoop g h res h'` is the
variant for the items loop, which is also allowed to write the working
group `g` (itself freshly allocated by the caller), and which returns `g`
on success.
-/

/-- Frame property of keymapItemFromYAML / keymapGroupFromYAML. -/
def FrameOk (h : Heap) (res : Except PError Nat) (h' : Heap) : Prop :=
  h.length ≤ h'.length ∧ (∀ i, i < h.length → h'[i]? = h[i]?) ∧
  ∀ r, res = .ok r → h.length ≤ r ∧ r < h'.length

/-- Frame property of processEntries: only the working group reference may
be overwritten, and success returns that same reference. -/
def FrameLoop (g : Nat) (h : Heap) (res : Except PError Nat) (h' : Heap) :
    Prop :=
  h.length ≤ h'.length ∧ (∀ i, i < h.length → i ≠ g → h'[i]? = h[i]?) ∧
  ∀ r, res = .ok r → r = g

/-- FrameOk for a step that leaves the heap unchanged and fails. -/
theorem FrameOk.error (h : Heap) (e : PError) : FrameOk h (.error e) h :=
  ⟨le_rfl, fun _ _ => rfl, fun r hr => by cases hr⟩

/-- FrameOk for a single fresh allocation. -/
theorem FrameOk.alloc (h : Heap) (o : HObj) :
    FrameOk h (.ok (allocH h o).1) (allocH h o).2 := by
  refine ⟨by simp [allocH], fun i hi => ?_, fun r hr => ?_⟩
  · exact List.getElem?_append_left hi
  · cases hr
    simp [allocH]

/-- copyH is an allocation of some object. -/
theorem copyH_eq (h : Heap) (e : Nat) :
    ∃ ob, copyH h e = (h.length, h ++ [ob]) := by
  unfold copyH
  split
  · exact ⟨_, rfl⟩
  · exact ⟨_, rfl⟩

/-- writeH preserves length and all other cells. -/
theorem writeH_frame (h : Heap) (r : Nat) (o : HObj) :
    (writeH h r o).length = h.length ∧
    ∀ i, i ≠ r → (writeH h r o)[i]? = h[i]? := by
  refine ⟨List.length_set h r o, fun i hi => ?_⟩
  exact List.getElem?_set_ne (fun he => hi he.symm)

/-- setChildH preserves length and all cells other than the group. -/
theorem setChildH_frame (h : Heap) (g : Nat) (k : KeyPress) (item : Nat) :
    (setChildH h g k item).length = h.length ∧
    ∀ i, i ≠ g → (setChildH h g k item)[i]? = h[i]? := by
  unfold setChildH
  split
  · exact writeH_frame h g _
  · exact ⟨rfl, fun _ _ => rfl⟩

/-- removeChildH preserves length and all cells other than the group. -/
theorem removeChildH_frame (h : Heap) (g : Nat) (k : KeyPress) :
    (removeChildH h g k).length = h.length ∧
    ∀ i, i ≠ g → (removeChildH h g k)[i]? = h[i]? := by
  unfold removeChildH
  split
  · exact writeH_frame h g _
  · exact ⟨rfl, fun _ _ => rfl⟩

/-- setDescH preserves length and all cells other than the item. -/
theorem setDescH_frame (h : Heap) (r : Nat) (d : Option Str) :
    (setDescH h r d).length = h.length ∧
    ∀ i, i ≠ r → (setDescH h r d)[i]? = h[i]? :=
  writeH_frame h r _

/-- descStep preserves length and every cell other than the item it
decorates, and returns that item on success. -/
theorem descStep_frame (o : List (Str × YAMLData)) (path : List PathSeg)
    (r : Nat) (h : Heap) {res : Except PError Nat} {h' : Heap}
    (heq : descStep o path r h = (res, h')) :
    h'.length = h.length ∧ (∀ i, i ≠ r → h'[i]? = h[i]?) ∧
    ∀ r', res = .ok r' → r' = r := by
  unfold descStep at heq
  split at heq
  · cases heq
    exact ⟨rfl, fun _ _ => rfl, fun r' hr => by cases hr; rfl⟩
  · cases heq
    exact ⟨(setDescH_frame h r _).1, fun i hi => (setDescH_frame h r _).2 i hi,
      fun r' hr => by cases hr; rfl⟩
  · cases heq
    exact ⟨(setDescH_frame h r _).1, fun i hi => (setDescH_frame h r _).2 i hi,
      fun r' hr => by cases hr; rfl⟩
  · cases heq
    exact ⟨rfl, fun _ _ => rfl, fun r' hr => by cases hr⟩

/-- A FrameLoop on a freshly allocated working group yields FrameOk with
respect to the heap before the allocation. -/
theorem FrameLoop.toFrameOk {h h0 : Heap} {g0 : Nat} {res : Except PError Nat}
    {h' : Heap} (hl : FrameLoop g0 h0 res h') (ob : HObj)
    (hg : g0 = h.length) (hh : h0 = h ++ [ob]) : FrameOk h res h' := by
  obtain ⟨l1, l2, l3⟩ := hl
  subst hg hh
  have l1' : h.length + 1 ≤ h'.length := by simpa using l1
  refine ⟨by omega, fun i hi => ?_, fun r hr => ?_⟩
  · rw [l2 i (by simp; omega) (by omega)]
    exact List.getElem?_append_left hi
  · have := l3 r hr
    subst this
    exact ⟨le_rfl, by omega⟩

/-- YAML data values have positive size. -/
theorem sizeOf_yaml_pos (d : YAMLData) : 1 ≤ sizeOf d := by
  cases d <;> simp_arith

/-- Lists have positive size. -/
theorem sizeOf_list_pos {α : Type} [SizeOf α] (l : List α) : 1 ≤ sizeOf l := by
  cases l <;> simp_arith

/-- The frame property of the three mutually recursive parser functions,
by induction on the size of the parsed data: no pre-existing heap cell is
modified (except, inside the items loop, the freshly allocated working
group), the heap only grows, and every returned reference is fresh. -/
theorem parseFrame : ∀ N : Nat,
    (∀ data : YAMLData, sizeOf data ≤ N → ∀ path ext h res h',
      keymapItemFromYAML data path ext h = (res, h') → FrameOk h res h') ∧
    (∀ o : List (Str × YAMLData), sizeOf o ≤ N → ∀ path ext h res h',
      keymapGroupFromYAML o path ext h = (res, h') → FrameOk h res h') ∧
    (∀ l : List (Str × YAMLData), sizeOf l ≤ N →
      ∀ idata g path h res h',
      processEntries l idata g path h = (res, h') → FrameLoop g h res h') := by
  intro N
  induction N with
  | zero =>
    refine ⟨?_, ?_, ?_⟩
    · intro data hsz
      exact absurd hsz (by have := sizeOf_yaml_pos data; omega)
    · intro o hsz
      exact absurd hsz (by have := sizeOf_list_pos o; omega)
    · intro l hsz
      exact absurd hsz (by have := sizeOf_list_pos l; omega)
  | succ N ihN =>
    obtain ⟨ihItem, ihGroup, ihLoop⟩ := ihN
    refine ⟨?_, ?_, ?_⟩
    · -- keymapItemFromYAML
      intro data hsz path ext h res h' heq
      cases data with
      | str s =>
        rw [keymapItemFromYAML] at heq
        split_ifs at heq with hs
        · cases heq
          exact FrameOk.error h _
        · cases heq
          exact FrameOk.alloc h _
      | obj o =>
        have hszo : sizeOf o ≤ N := by
          simp at hsz
          omega
        rw [keymapItemFromYAML] at heq
        by_cases hx : (cond (hasKeyY o "command".data) 1 0) +
            (cond (hasKeyY o "file".data) 1 0) +
            (cond (hasKeyY o "items".data) 1 0) ≠ 1
        · rw [if_pos hx] at heq
          cases heq
          exact FrameOk.error h _
        · rw [if_neg hx] at heq
          by_cases hc : hasKeyY o "command".data = true
          · rw [if_pos hc] at heq
            rcases hlc : lookupY o "command".data with _ | vc
            · simp only [hlc] at heq
              cases heq
              exact FrameOk.error h _
            · rcases vc with cs | n | b | _ | al | entries <;>
                simp only [hlc] at heq
              · split_ifs at heq with hcs
                · cases heq
                  exact FrameOk.error h _
                · obtain ⟨d1, d2, d3⟩ := descStep_frame o path _ _ heq
                  have hl1 : (allocH h (HObj.command cs none)).2.length =
                      h.length + 1 := by simp [allocH]
                  have hl2 : (allocH h (HObj.command cs none)).1 = h.length :=
                    rfl
                  refine ⟨by omega, fun i hi => ?_, fun r hr => ?_⟩
                  · rw [d2 i (by omega), allocH]
                    exact List.getElem?_append_left hi
                  · have := d3 r hr
                    subst this
                    omega
              all_goals (cases heq; exact FrameOk.error h _)
          · rw [if_neg hc] at heq
            by_cases hf : hasKeyY o "file".data = true
            · rw [if_pos hf] at heq
              rcases hlf : lookupY o "file".data with _ | vf
              · simp only [hlf] at heq
                cases heq
                exact FrameOk.error h _
              · rcases vf with fs | n | b | _ | al | entries <;>
                  simp only [hlf] at heq
                · split_ifs at heq with hfs
                  · cases heq
                    exact FrameOk.error h _
                  · obtain ⟨d1, d2, d3⟩ := descStep_frame o path _ _ heq
                    have hl1 : (allocH h (HObj.fileref fs none)).2.length =
                        h.length + 1 := by simp [allocH]
                    have hl2 : (allocH h (HObj.fileref fs none)).1 = h.length :=
                      rfl
                    refine ⟨by omega, fun i hi => ?_, fun r hr => ?_⟩
                    · rw [d2 i (by omega), allocH]
                      exact List.getElem?_append_left hi
                    · have := d3 r hr
                      subst this
                      omega
                all_goals (cases heq; exact FrameOk.error h _)
            · rw [if_neg hf] at heq
              by_cases hg : hasKeyY o "items".data = true
              · rw [if_pos hg] at heq
                rcases hgr : keymapGroupFromYAML o path ext h with ⟨gres, h1⟩
                obtain ⟨g1, g2, g3⟩ := ihGroup o hszo path ext h gres h1 hgr
                rw [hgr] at heq
                cases gres with
                | ok r =>
                  simp only at heq
                  obtain ⟨d1, d2, d3⟩ := descStep_frame o path r h1 heq
                  obtain ⟨hr1, hr2⟩ := g3 r rfl
                  refine ⟨by omega, fun i hi => ?_, fun r' hr' => ?_⟩
                  · rw [d2 i (by omega), g2 i hi]
                  · have := d3 r' hr'
                    subst this
                    omega
                | error e =>
                  simp only at heq
                  cases heq
                  exact ⟨g1, g2, fun r hr => by cases hr⟩
              · rw [if_neg hg] at heq
                cases heq
                exact FrameOk.error h _
      | num n =>
        rw [keymapItemFromYAML] at heq
        cases heq
        exact FrameOk.error h _
      | bool b =>
        rw [keymapItemFromYAML] at heq
        cases heq
        exact FrameOk.error h _
      | null =>
        rw [keymapItemFromYAML] at heq
        cases heq
        exact FrameOk.error h _
      | arr l =>
        rw [keymapItemFromYAML] at heq
        cases heq
        exact FrameOk.error h _
    · -- keymapGroupFromYAML
      intro o hsz path ext h res h' heq
      rw [keymapGroupFromYAML] at heq
      split at heq
      · -- items is an object
        rename_i entries hit
        have hsze : sizeOf entries ≤ N := by
          have := sizeOf_lookupY hit
          simp at this
          omega
        split at heq
        · -- clear present and boolean
          dsimp only at heq
          rcases ext with _ | e
          · exact (ihLoop entries hsze _ _ path _ res h' heq).toFrameOk _
              rfl rfl
          · dsimp only at heq
            split_ifs at heq with hcl
            · exact (ihLoop entries hsze _ _ path _ res h' heq).toFrameOk _
                rfl rfl
            · obtain ⟨ob, hob⟩ := copyH_eq h e
              rw [hob] at heq
              exact (ihLoop entries hsze _ _ path _ res h' heq).toFrameOk ob
                rfl rfl
        · -- clear absent
          dsimp only at heq
          rcases ext with _ | e
          · exact (ihLoop entries hsze _ _ path _ res h' heq).toFrameOk _
              rfl rfl
          · dsimp only at heq
            split_ifs at heq with hcl
            · exact (ihLoop entries hsze _ _ path _ res h' heq).toFrameOk _
                rfl rfl
            · obtain ⟨ob, hob⟩ := copyH_eq h e
              rw [hob] at heq
              exact (ihLoop entries hsze _ _ path _ res h' heq).toFrameOk ob
                rfl rfl
        · -- clear invalid
          cases heq
          exact FrameOk.error h _
      · -- items null
        rename_i hit
        have hsze0 : sizeOf ([] : List (Str × YAMLData)) ≤ N := by
          have := sizeOf_lookupY hit
          have h0 : sizeOf ([] : List (Str × YAMLData)) = 1 := rfl
          have h1 : sizeOf YAMLData.null = 1 := rfl
          omega
        split at heq
        · dsimp only at heq
          rcases ext with _ | e
          · exact (ihLoop [] hsze0 _ _ path _ res h' heq).toFrameOk _
              rfl rfl
          · dsimp only at heq
            split_ifs at heq with hcl
            · exact (ihLoop [] hsze0 _ _ path _ res h' heq).toFrameOk
                _ rfl rfl
            · obtain ⟨ob, hob⟩ := copyH_eq h e
              rw [hob] at heq
              exact (ihLoop [] hsze0 _ _ path _ res h' heq).toFrameOk
                ob rfl rfl
        · dsimp only at heq
          rcases ext with _ | e
          · exact (ihLoop [] hsze0 _ _ path _ res h' heq).toFrameOk _
              rfl rfl
          · dsimp only at heq
            split_ifs at heq with hcl
            · exact (ihLoop [] hsze0 _ _ path _ res h' heq).toFrameOk
                _ rfl rfl
            · obtain ⟨ob, hob⟩ := copyH_eq h e
              rw [hob] at heq
              exact (ihLoop [] hsze0 _ _ path _ res h' heq).toFrameOk
                ob rfl rfl
        · cases heq
          exact FrameOk.error h _
      · -- items missing or wrong type
        cases heq
        exact FrameOk.error h _
    · -- processEntries
      intro l hsz idata g path h res h' heq
      cases l with
      | nil =>
        rw [processEntries] at heq
        cases heq
        exact ⟨le_rfl, fun _ _ _ => rfl, fun r hr => by cases hr; rfl⟩
      | cons e rest =>
        obtain ⟨keyStr, value⟩ := e
        have hszr : sizeOf rest ≤ N := by
          simp at hsz
          omega
        have hszv : sizeOf value ≤ N := by
          simp at hsz
          omega
        rw [processEntries] at heq
        split at heq
        · -- parseKey failed
          cases heq
          exact ⟨le_rfl, fun _ _ _ => rfl, fun r hr => by cases hr⟩
        · -- parseKey succeeded
          rename_i key hkey
          split_ifs at heq with hnull
          · -- null value: removeChild then continue
            obtain ⟨l1, l2, l3⟩ :=
              ihLoop rest hszr idata g path (removeChildH h g key) res h' heq
            have hrc := removeChildH_frame h g key
            refine ⟨?_, fun i hi hig => ?_, l3⟩
            · omega
            · rw [l2 i (by omega) hig, hrc.2 i hig]
          · -- parse the child, then setChild and continue
            split at heq
            · rename_i child h1 hitem
              obtain ⟨f1, f2, f3⟩ := ihItem value hszv _ _ h (.ok child) h1 hitem
              obtain ⟨l1, l2, l3⟩ :=
                ihLoop rest hszr idata g path (setChildH h1 g key child) res h'
                  heq
              have hsc := setChildH_frame h1 g key child
              refine ⟨?_, fun i hi hig => ?_, l3⟩
              · omega
              · rw [l2 i (by omega) hig, hsc.2 i hig, f2 i hi]
            · rename_i e1 h1 hitem
              injection heq with hres hh
              subst hres
              subst hh
              obtain ⟨f1, f2, f3⟩ := ihItem value hszv _ _ h (.error e1) h1 hitem
              exact ⟨f1, fun i hi _ => f2 i hi, fun r hr => by cases hr⟩

/-- The frame property transfers to the top-level keymapFromYAML entry
point. -/
theorem keymapFromYAML_frameOk (data : YAMLData) (ext : Option Nat) (h : Heap)
    (res : Except PError Nat) (h' : Heap)
    (heq : keymapFromYAML data ext h = (res, h')) : FrameOk h res h' := by
  cases data with
  | obj o =>
    rw [keymapFromYAML] at heq
    split_ifs at heq with hk
    · split at heq
      · rename_i r h1 hitem
        have hf := (parseFrame (sizeOf (YAMLData.obj o))).1 (.obj o) le_rfl []
          ext h (.ok r) h1 hitem
        split at heq
        · injection heq with hres hh
          subst hres
          subst hh
          exact hf
        · injection heq with hres hh
          subst hres
          subst hh
          exact ⟨hf.1, hf.2.1, fun r' hr' => by cases hr'⟩
      · rename_i e h1 hitem
        have hf := (parseFrame (sizeOf (YAMLData.obj o))).1 (.obj o) le_rfl []
          ext h (.error e) h1 hitem
        injection heq with hres hh
        subst hres
        subst hh
        exact ⟨hf.1, hf.2.1, fun r' hr' => by cases hr'⟩
    · cases heq
      exact FrameOk.error h _
  | str s =>
    rw [keymapFromYAML] at heq
    cases heq
    exact FrameOk.error h _
  | num n =>
    rw [keymapFromYAML] at heq
    cases heq
    exact FrameOk.error h _
  | bool b =>
    rw [keymapFromYAML] at heq
    cases heq
    exact FrameOk.error h _
  | null =>
    rw [keymapFromYAML] at heq
    cases heq
    exact FrameOk.error h _
  | arr l =>
    rw [keymapFromYAML] at heq
    cases heq
    exact FrameOk.error h _

/-- A child item is smaller than its children list. -/
theorem sizeOf_mem_children {k : KeyPress} {it : KeymapItem}
    {ch : List (KeyPress × KeymapItem)} (h : (k, it) ∈ ch) :
    sizeOf it < sizeOf ch := by
  induction ch with
  | nil => simp at h
  | cons x xs ih =>
    rcases List.mem_cons.mp h with h | h
    · cases h
      simp
      omega
    · have := ih h
      simp
      omega

/-- Membership in a children traversal comes from some child's traversal. -/
theorem mem_walkChildren {ch : List (KeyPress × KeymapItem)}
    {keys : List KeyPress} {p : KeymapItem × List KeyPress} :
    p ∈ walkChildren ch keys ↔
      ∃ k child, (k, child) ∈ ch ∧ p ∈ walkItem child (keys ++ [k]) := by
  induction ch with
  | nil => simp [walkChildren]
  | cons x xs ih =>
    obtain ⟨k0, it0⟩ := x
    rw [walkChildren]
    simp only [List.mem_append, ih, List.mem_cons]
    constructor
    · rintro (h | ⟨k, child, hm, hp⟩)
      · exact ⟨k0, it0, Or.inl rfl, h⟩
      · exact ⟨k, child, Or.inr hm, hp⟩
    · rintro ⟨k, child, hm | hm, hp⟩
      · cases hm
        exact Or.inl hp
      · exact Or.inr ⟨k, child, hm, hp⟩

/-- A key of a member pair is found by hasKeyIn. -/
theorem hasKeyIn_of_mem {ch : List (KeyPress × KeymapItem)} {k : KeyPress}
    {it : KeymapItem} (h : (k, it) ∈ ch) : hasKeyIn ch k = true := by
  induction ch with
  | nil => simp at h
  | cons x xs ih =>
    obtain ⟨k0, it0⟩ := x
    rcases List.mem_cons.mp h with h | h
    · cases h
      simp [hasKeyIn]
    · simp [hasKeyIn, ih h]

/-- Under distinct keys, getChild returns exactly the member child. -/
theorem getChild_of_mem {ch : List (KeyPress × KeymapItem)} {k : KeyPress}
    {child : KeymapItem} (hnd : wfKeys ch = true) (hm : (k, child) ∈ ch) :
    getChild ch k = some child := by
  induction ch with
  | nil => simp at hm
  | cons x xs ih =>
    obtain ⟨k0, it0⟩ := x
    simp only [wfKeys, Bool.and_eq_true, Bool.not_eq_true'] at hnd
    rcases List.mem_cons.mp hm with h | h
    · cases h
      simp [getChild]
    · have hk0 : k0 ≠ k := by
        intro he
        subst he
        exact absurd (hasKeyIn_of_mem h) (by simp [hnd.1])
      simp only [getChild]
      rw [if_neg hk0]
      exact ih hnd.2 h

/-- The items of a well-formed children list are well-formed. -/
theorem wfChildren_mem {ch : List (KeyPress × KeymapItem)}
    (h : wfChildren ch = true) {k : KeyPress} {it : KeymapItem}
    (hm : (k, it) ∈ ch) : wfItem it = true := by
  induction ch with
  | nil => simp at hm
  | cons x xs ih =>
    obtain ⟨k0, it0⟩ := x
    rw [wfChildren, Bool.and_eq_true] at h
    rcases List.mem_cons.mp hm with hh | hh
    · cases hh
      exact h.1
    · exact ih h.2 hh

/-- Every (item, path) pair visited by the walk of a well-formed item is
found back by a strict find of its path. -/
theorem walkItem_find : ∀ (n : Nat) (it : KeymapItem), sizeOf it ≤ n →
    ∀ (keys : List KeyPress) (it' : KeymapItem) (p : List KeyPress),
    wfItem it = true → (it', p) ∈ walkItem it keys →
    ∃ q, p = keys ++ q ∧ it.find q true = some it' := by
  intro n
  induction n with
  | zero =>
    intro it hsz
    exfalso
    cases it <;> simp at hsz
  | succ n ih =>
    intro it hsz keys it' p hwf hmem
    cases it with
    | command cid d =>
      rw [walkItem] at hmem
      simp only [List.mem_singleton, Prod.mk.injEq] at hmem
      obtain ⟨rfl, rfl⟩ := hmem
      exact ⟨[], by simp, rfl⟩
    | fileref f d =>
      rw [walkItem] at hmem
      simp only [List.mem_singleton, Prod.mk.injEq] at hmem
      obtain ⟨rfl, rfl⟩ := hmem
      exact ⟨[], by simp, rfl⟩
    | group d ch =>
      rw [walkItem] at hmem
      rcases List.mem_cons.mp hmem with hmem | hmem
      · rw [Prod.mk.injEq] at hmem
        obtain ⟨rfl, rfl⟩ := hmem
        exact ⟨[], by simp, rfl⟩
      · rw [mem_walkChildren] at hmem
        obtain ⟨k, child, hkch, hmem⟩ := hmem
        rw [wfItem, Bool.and_eq_true] at hwf
        have hwf' : wfItem child = true := wfChildren_mem hwf.2 hkch
        have hsz' : sizeOf child ≤ n := by
          have h1 := sizeOf_mem_children hkch
          have h2 : sizeOf ch < sizeOf (KeymapItem.group d ch) := by
            simp
          omega
        obtain ⟨q, hpq, hfind⟩ := ih child hsz' (keys ++ [k]) it' p hwf' hmem
        refine ⟨k :: q, by simp [hpq], ?_⟩
        simp only [KeymapItem.find]
        rw [getChild_of_mem hwf.1 hkch]
        exact hfind

/-- pushSeq appends the new sequence at the pushed id. -/
theorem lookupCmd_pushSeq_self (mrec : List (Str × List (List KeyPress)))
    (c : Str) (ks : List KeyPress) :
    lookupCmd (pushSeq mrec c ks) c =
      some ((lookupCmd mrec c).getD [] ++ [ks]) := by
  induction mrec with
  | nil => simp [pushSeq, lookupCmd]
  | cons x xs ih =>
    obtain ⟨c0, l0⟩ := x
    by_cases hc : c0 = c
    · subst hc
      simp [pushSeq, lookupCmd]
    · simp only [pushSeq, lookupCmd]
      rw [if_neg hc, if_neg hc]
      simp only [lookupCmd]
      rw [if_neg hc]
      exact ih

/-- pushSeq leaves other ids untouched. -/
theorem lookupCmd_pushSeq_other (mrec : List (Str × List (List KeyPress)))
    (c c' : Str) (ks : List KeyPress) (h : c' ≠ c) :
    lookupCmd (pushSeq mrec c ks) c' = lookupCmd mrec c' := by
  induction mrec with
  | nil =>
    simp only [pushSeq, lookupCmd]
    rw [if_neg (fun he => h he.symm)]
  | cons x xs ih =>
    obtain ⟨c0, l0⟩ := x
    by_cases hc : c0 = c
    · subst hc
      simp only [pushSeq, if_pos rfl, lookupCmd]
      rw [if_neg (fun he => h he.symm), if_neg (fun he => h he.symm)]
    · simp only [pushSeq, lookupCmd]
      rw [if_neg hc]
      simp only [lookupCmd]
      by_cases hc' : c0 = c'
      · rw [if_pos hc', if_pos hc']
      · rw [if_neg hc', if_neg hc']
        exact ih

/-- A sequence found in the folded record comes from the accumulator or
from a visited command pair. -/
theorem mem_lookupCmd_fold :
    ∀ (pairs : List (KeymapItem × List KeyPress))
      (acc : List (Str × List (List KeyPress))) (c : Str)
      (l : List (List KeyPress)) (p : List KeyPress),
    lookupCmd (pairs.foldl accStep acc) c = some l → p ∈ l →
    (∃ l0, lookupCmd acc c = some l0 ∧ p ∈ l0) ∨
      ∃ d, (KeymapItem.command c d, p) ∈ pairs := by
  intro pairs
  induction pairs with
  | nil =>
    intro acc c l p hl hp
    exact Or.inl ⟨l, hl, hp⟩
  | cons x xs ih =>
    intro acc c l p hl hp
    rw [List.foldl_cons] at hl
    rcases ih (accStep acc x) c l p hl hp with ⟨l0, hl0, hp0⟩ | ⟨d, hm⟩
    · obtain ⟨item, keys⟩ := x
      cases item with
      | command cid cd =>
        by_cases hc : cid = c
        · subst hc
          rw [accStep] at hl0
          simp only at hl0
          rw [lookupCmd_pushSeq_self] at hl0
          cases hl0
          rcases List.mem_append.mp hp0 with hp0 | hp0
          · rcases hacc : lookupCmd acc cid with _ | l1
            · rw [hacc] at hp0
              simp at hp0
            · rw [hacc] at hp0
              exact Or.inl ⟨l1, rfl, hp0⟩
          · simp only [List.mem_singleton] at hp0
            subst hp0
            exact Or.inr ⟨cd, by simp⟩
        · rw [accStep] at hl0
          simp only at hl0
          rw [lookupCmd_pushSeq_other _ _ _ _ (fun he => hc he.symm)] at hl0
          exact Or.inl ⟨l0, hl0, hp0⟩
      | group gd gch => exact Or.inl ⟨l0, hl0, hp0⟩
      | fileref ff fd => exact Or.inl ⟨l0, hl0, hp0⟩
    · exact Or.inr ⟨d, List.mem_cons_of_mem _ hm⟩

/-- indexOfChar misses characters that do not occur. -/
theorem indexOfChar_eq_none {k : Str} {c : Char} (h : ∀ x ∈ k, x ≠ c) :
    indexOfChar k c = none := by
  induction k with
  | nil => rfl
  | cons y ys ih =>
    simp only [indexOfChar]
    rw [if_neg (h y (by simp)), ih (fun x hx => h x (by simp [hx]))]
    rfl

/-- indexOfChar finds the separator right after a prefix free of it. -/
theorem indexOfChar_append_cons {ms : Str} {c : Char}
    (h : ∀ x ∈ ms, x ≠ c) (t : Str) :
    indexOfChar (ms ++ c :: t) c = some ms.length := by
  induction ms with
  | nil => simp [indexOfChar]
  | cons y ys ih =>
    have hy : y ≠ c := h y (by simp)
    have ih' := ih (fun x hx => h x (by simp [hx]))
    simp [indexOfChar, hy, ih']

/-- Taking the length of the left part of an append-cons recovers it. -/
theorem take_append_cons (ms : Str) (c : Char) (t : Str) :
    (ms ++ c :: t).take ms.length = ms := by
  induction ms with
  | nil => simp
  | cons y ys ih => simp [ih]

/-- Dropping past the separator of an append-cons leaves the tail. -/
theorem drop_append_cons (ms : Str) (c : Char) (t : Str) :
    (ms ++ c :: t).drop (ms.length + 1) = t := by
  induction ms with
  | nil => simp
  | cons y ys ih => simp [ih]

/-- A string accepted by KEYCODE_REGEXP is nonempty. -/
theorem keycodeTest_ne_nil {k : Str} (h : keycodeTest k = true) : k ≠ [] := by
  intro he
  subst he
  exact absurd h (by decide)

/-- A string accepted by KEYCODE_REGEXP other than "-" itself contains no
dash. -/
theorem keycodeTest_no_dash {k : Str} (h : keycodeTest k = true)
    (hne : k ≠ ['-']) : indexOfChar k '-' = none := by
  apply indexOfChar_eq_none
  intro x hx hxd
  subst hxd
  simp only [keycodeTest, Bool.or_eq_true] at h
  rcases h with (h | h) | h
  · cases k with
    | nil => simp at hx
    | cons c0 rest =>
      cases rest with
      | nil =>
        simp at hx
        subst hx
        exact hne rfl
      | cons c1 r2 => simp at h
  · rw [Bool.and_eq_true, List.all_eq_true] at h
    exact absurd (h.2 '-' hx) (by decide)
  · rcases k with _ | ⟨f, _ | ⟨d, _ | ⟨e, r⟩⟩⟩
    · simp [fkeyTest] at h
    · simp [fkeyTest] at h
    · simp only [fkeyTest, Bool.and_eq_true, Bool.or_eq_true,
        decide_eq_true_eq] at h
      obtain ⟨hf, hd1, hd2⟩ := h
      simp only [List.mem_cons, List.mem_singleton] at hx
      rcases hx with hx | hx | hx
      · rcases hf with hf | hf <;> simp [← hx] at hf
      · rw [← hx] at hd1
        exact absurd hd1 (by decide)
      · simp at hx
    · cases r with
      | nil =>
        simp only [fkeyTest, Bool.and_eq_true, Bool.or_eq_true,
          decide_eq_true_eq] at h
        obtain ⟨⟨hf, ho⟩, hd1, hd2⟩ := h
        simp only [List.mem_cons, List.mem_singleton] at hx
        rcases hx with hx | hx | hx | hx
        · rcases hf with hf' | hf' <;> simp [← hx] at hf'
        · rw [← hx] at ho
          exact absurd ho (by decide)
        · rw [← hx] at hd1
          exact absurd hd1 (by decide)
        · simp at hx
      | cons e2 r2 => simp [fkeyTest] at h

/-- The preferred reverse alias of a nonempty key is nonempty. -/
theorem reverseAliases_getD_ne_nil {key : Str} (hk : key ≠ []) :
    (reverseAliases key).getD key ≠ [] := by
  unfold reverseAliases
  split_ifs <;> simp_all

/-- finishKey on the lowercased reverse alias of a canonical key recovers
the key, preserving modifiers (with shift already false when the key
ignores shift). -/
theorem finishKey_canonical (u key : Str) (mods : KeyModifiers)
    (h1 : keycodeTest key = true)
    (h5 : strToLower key = key)
    (h3 : keyAliases key = none)
    (h4 : shouldIgnoreShift key = true → mods.shift = false) :
    finishKey u (strToLower ((reverseAliases key).getD key)) mods =
      .success ⟨key, mods.ctrl, mods.shift, mods.alt, mods.meta⟩ := by
  unfold reverseAliases
  split_ifs with e1 e2 e3 e4 e5
  · subst e1
    rfl
  · subst e2
    rfl
  · subst e3
    rfl
  · subst e4
    rfl
  · subst e5
    rfl
  · simp only [Option.getD_none, h5]
    simp only [finishKey]
    have hk1 : (if key.length > 1 then strToLower key else key) = key := by
      split
      · exact h5
      · rfl
    rw [hk1, h3]
    simp only [Option.getD_none]
    rw [if_pos h1]
    by_cases hig : shouldIgnoreShift key = true
    · rw [if_pos hig, ← h4 hig]
    · rw [if_neg hig]

/-- parseKey on the reverse alias of a canonical key with no modifier
prefix recovers the key with no flags. -/
theorem parseKey_canonical_plain (key : Str)
    (h1 : keycodeTest key = true)
    (h2 : key.length ≤ 1 ∨ strToLower key = key)
    (h3 : keyAliases key = none) :
    parseKey ((reverseAliases key).getD key) =
      .success ⟨key, false, false, false, false⟩ := by
  unfold reverseAliases
  split_ifs with e1 e2 e3 e4 e5
  · subst e1
    decide
  · subst e2
    decide
  · subst e3
    decide
  · subst e4
    decide
  · subst e5
    decide
  · simp only [Option.getD_none]
    by_cases hd : key = ['-']
    · subst hd
      decide
    · have hne := keycodeTest_ne_nil h1
      unfold parseKey
      rw [if_neg hne, if_neg hd, keycodeTest_no_dash h1 hd]
      dsimp only
      simp only [finishKey]
      have hk1 : (if key.length > 1 then strToLower key else key) = key := by
        rcases h2 with h2 | h2
        · rw [if_neg]
          omega
        · split
          · exact h2
          · rfl
      rw [hk1, h3]
      simp only [Option.getD_none]
      rw [if_pos h1]
      by_cases hig : shouldIgnoreShift key = true
      · rw [if_pos hig]
      · rw [if_neg hig]

/-- parseKey on a canonical key prefixed with modifier letters recovers the
key and exactly the modifiers the letters denote. -/
theorem parseKey_canonical_mods (key ms : Str) (c s a m : Bool)
    (hms : parseMods ms ⟨false, false, false, false⟩ = .ok ⟨c, s, a, m⟩)
    (hmsd : ∀ x ∈ ms, x ≠ '-') (hmsne : ms ≠ [])
    (h1 : keycodeTest key = true)
    (h5 : strToLower key = key)
    (h3 : keyAliases key = none)
    (h4 : shouldIgnoreShift key = true → s = false) :
    parseKey (ms ++ '-' :: ((reverseAliases key).getD key)) =
      .success ⟨key, c, s, a, m⟩ := by
  have hkne := keycodeTest_ne_nil h1
  have hrkne : (reverseAliases key).getD key ≠ [] :=
    reverseAliases_getD_ne_nil hkne
  have hune : ms ++ '-' :: ((reverseAliases key).getD key) ≠ [] := by
    cases ms <;> simp
  have hu1 : ms ++ '-' :: ((reverseAliases key).getD key) ≠ ['-'] := by
    cases ms with
    | nil => exact absurd rfl hmsne
    | cons y ys =>
      simp only [List.cons_append]
      intro hc
      injection hc with hh1 hh2
      exact absurd hh2 (by simp)
  unfold parseKey
  rw [if_neg hune, if_neg hu1,
    indexOfChar_append_cons hmsd ((reverseAliases key).getD key)]
  dsimp only
  rw [take_append_cons, drop_append_cons]
  have hlow : strToLower ((reverseAliases key).getD key) ≠ [] := by
    simp only [strToLower, ne_eq, List.map_eq_nil_iff]
    exact hrkne
  rw [if_neg (not_or.mpr ⟨hlow, hmsne⟩), hms]
  dsimp only
  exact finishKey_canonical _ key ⟨c, s, a, m⟩ h1 h5 h3 h4

/-!
## Claim theorems
-/

/-- The KeyPress with key "?" and an explicitly requested shift. -/
def kpShiftQuestion : KeyPress := ⟨['?'], false, true, false, false⟩

/-- C1 (counterexample): for the constructible KeyPress with key "?" and
shift=true, parseKey (unparseKey kp) succeeds but yields shift=false, so
the result is not structurally equal to kp and the unrestricted round-trip
law fails. -/
theorem parseKey_unparseKey_not_roundtrip :
    unparseKey kpShiftQuestion = ['s', '-', '?'] ∧
    parseKey (unparseKey kpShiftQuestion) =
      .success ⟨['?'], false, false, false, false⟩ ∧
    parseKey (unparseKey kpShiftQuestion) ≠ .success kpShiftQuestion := by
  refine ⟨by decide, by decide, by decide⟩

/-- C1 (amended): the round-trip law parseKey (unparseKey kp) = success kp
holds for every KeyPress kp whose key (i) matches the key-code grammar,
(ii) is already lowercase when longer than one character, (iii) is not one
of the alias names space/spc/up/down/left/right, with (iv) shift false
whenever the key is a single non-space character, and (v) a key unchanged
by lowercasing whenever any modifier flag is set (with modifiers the parser
lowercases the whole key part, so e.g. key "A" with ctrl set does not
round-trip). -/
theorem parseKey_unparseKey_roundtrip (kp : KeyPress)
    (h1 : keycodeTest kp.key = true)
    (h2 : kp.key.length ≤ 1 ∨ strToLower kp.key = kp.key)
    (h3 : keyAliases kp.key = none)
    (h4 : shouldIgnoreShift kp.key = true → kp.shift = false)
    (h5 : (kp.ctrl || kp.shift || kp.alt || kp.meta) = true →
      strToLower kp.key = kp.key) :
    parseKey (unparseKey kp) = .success kp := by
  obtain ⟨key, c, s, a, m⟩ := kp
  simp only at h1 h2 h3 h4 h5
  cases c <;> cases s <;> cases a <;> cases m
  · exact parseKey_canonical_plain key h1 h2 h3
  · exact parseKey_canonical_mods key ['m'] false false false true
      rfl (by decide) (by decide) h1 (h5 rfl) h3 (fun _ => rfl)
  · exact parseKey_canonical_mods key ['a'] false false true false
      rfl (by decide) (by decide) h1 (h5 rfl) h3 (fun _ => rfl)
  · exact parseKey_canonical_mods key ['a', 'm'] false false true true
      rfl (by decide) (by decide) h1 (h5 rfl) h3 (fun _ => rfl)
  · exact parseKey_canonical_mods key ['s'] false true false false
      rfl (by decide) (by decide) h1 (h5 rfl) h3 h4
  · exact parseKey_canonical_mods key ['s', 'm'] false true false true
      rfl (by decide) (by decide) h1 (h5 rfl) h3 h4
  · exact parseKey_canonical_mods key ['s', 'a'] false true true false
      rfl (by decide) (by decide) h1 (h5 rfl) h3 h4
  · exact parseKey_canonical_mods key ['s', 'a', 'm'] false true true true
      rfl (by decide) (by decide) h1 (h5 rfl) h3 h4
  · exact parseKey_canonical_mods key ['c'] true false false false
      rfl (by decide) (by decide) h1 (h5 rfl) h3 (fun _ => rfl)
  · exact parseKey_canonical_mods key ['c', 'm'] true false false true
      rfl (by decide) (by decide) h1 (h5 rfl) h3 (fun _ => rfl)
  · exact parseKey_canonical_mods key ['c', 'a'] true false true false
      rfl (by decide) (by decide) h1 (h5 rfl) h3 (fun _ => rfl)
  · exact parseKey_canonical_mods key ['c', 'a', 'm'] true false true true
      rfl (by decide) (by decide) h1 (h5 rfl) h3 (fun _ => rfl)
  · exact parseKey_canonical_mods key ['c', 's'] true true false false
      rfl (by decide) (by decide) h1 (h5 rfl) h3 h4
  · exact parseKey_canonical_mods key ['c', 's', 'm'] true true false true
      rfl (by decide) (by decide) h1 (h5 rfl) h3 h4
  · exact parseKey_canonical_mods key ['c', 's', 'a'] true true true false
      rfl (by decide) (by decide) h1 (h5 rfl) h3 h4
  · exact parseKey_canonical_mods key ['c', 's', 'a', 'm'] true true true true
      rfl (by decide) (by decide) h1 (h5 rfl) h3 h4

/-- Witness for C1 (amended): the canonical KeyPress ctrl+shift+enter
round-trips. -/
theorem parseKey_unparseKey_roundtrip_witness :
    parseKey (unparseKey ⟨"enter".data, true, true, false, false⟩) =
      .success ⟨"enter".data, true, true, false, false⟩ :=
  parseKey_unparseKey_roundtrip ⟨"enter".data, true, true, false, false⟩
    (by decide) (by decide) (by decide) (by decide) (by decide)

/-- The concrete keys and tree of claim C2:
root maps key1 to a subgroup (which maps key2 to commandA) and key3 to
commandB. -/
def keyOne : KeyPress := ⟨['x'], false, false, false, false⟩

/-- Second key of the C2 tree. -/
def keyTwo : KeyPress := ⟨['y'], false, false, false, false⟩

/-- Third key of the C2 tree. -/
def keyThree : KeyPress := ⟨['z'], false, false, false, false⟩

/-- commandA of the C2 tree. -/
def commandA : KeymapItem := .command "cmd:a".data none

/-- commandB of the C2 tree. -/
def commandB : KeymapItem := .command "cmd:b".data none

/-- The subgroup of the C2 tree. -/
def subgroupItem : KeymapItem := .group none [(keyTwo, commandA)]

/-- The children of the C2 root. -/
def rootChildren : List (KeyPress × KeymapItem) :=
  [(keyOne, subgroupItem), (keyThree, commandB)]

/-- The root group of the C2 tree. -/
def rootGroup : KeymapItem := .group none rootChildren

/-- C2: tree lookup semantics of KeymapGroup.find on the tree
root -> [key1 -> subgroup -> [key2 -> commandA], key3 -> commandB]:
find [] is the root itself, find [key1] the subgroup, find [key1,key2]
commandA, find [key3] commandB, find of any sequence starting with an
unassigned key is null, find [key1,key2,key3] with strict=false is commandA
(the first complete non-group match), and the same call with strict=true is
null. -/
theorem find_tree_lookup :
    rootGroup.find [] false = some rootGroup ∧
    rootGroup.find [keyOne] false = some subgroupItem ∧
    rootGroup.find [keyOne, keyTwo] false = some commandA ∧
    rootGroup.find [keyThree] false = some commandB ∧
    (∀ (u : KeyPress) (rest : List KeyPress) (strict : Bool),
      getChild rootChildren u = none →
      rootGroup.find (u :: rest) strict = none) ∧
    rootGroup.find [keyOne, keyTwo, keyThree] false = some commandA ∧
    rootGroup.find [keyOne, keyTwo, keyThree] true = none := by
  refine ⟨rfl, rfl, rfl, rfl, ?_, rfl, rfl⟩
  intro u rest strict hu
  simp only [rootGroup, KeymapItem.find, hu]

/-- Witness for C2: a concrete unassigned key, with the hypothesis
discharged by evaluation. -/
theorem find_tree_lookup_witness :
    rootGroup.find [⟨['q'], false, false, false, false⟩] true = none :=
  find_tree_lookup.2.2.2.2.1 ⟨['q'], false, false, false, false⟩ [] true rfl

/-- C6: each of "", "!!!", "01", "-enter", "x-enter", "c-" produces a
failure result (never a success, never a thrown exception — parseKey
returns its error as a value), and the failure for "x-enter" carries a
message mentioning the offending modifier letter x, distinct from the
generic invalid-key-code message. -/
theorem parseKey_invalid_inputs :
    (parseKey []).isErr = true ∧
    (parseKey "!!!".data).isErr = true ∧
    (parseKey "01".data).isErr = true ∧
    (parseKey "-enter".data).isErr = true ∧
    (parseKey "x-enter".data).isErr = true ∧
    (parseKey "c-".data).isErr = true ∧
    ∃ m, parseKey "x-enter".data = .error m ∧ 'x' ∈ m ∧
      m ≠ invalidKeyCodeMsg "x-enter".data := by
  refine ⟨by decide, by decide, by decide, by decide, by decide, by decide,
    invalidModifierMsg 'x', by decide, by decide, by decide⟩

/-- C7: for every key that is a single character other than space, a
KeyPress parsed from a key-code token or constructed from a keyboard event
has shift=false regardless of the requested flags; in particular
parseKey "?" succeeds with key "?" and shift=false. -/
theorem shift_suppression :
    (∀ (s : Str) (kp : KeyPress), parseKey s = .success kp →
      shouldIgnoreShift kp.key = true → kp.shift = false) ∧
    (∀ (key : Str) (c sh a m : Bool),
      shouldIgnoreShift (KeyPress.fromEvent key c sh a m).key = true →
      (KeyPress.fromEvent key c sh a m).shift = false) ∧
    parseKey ['?'] = .success ⟨['?'], false, false, false, false⟩ :=
  ⟨fun _ _ h => parseKey_success_shift h, fromEvent_shift, by decide⟩

/-- Witness for C7: parsing shift+slash (an explicitly requested shift on a
printable symbol) and an event for "?" with shift held both end with
shift=false. -/
theorem shift_suppression_witness :
    (⟨['/'], false, false, false, false⟩ : KeyPress).shift = false ∧
    (KeyPress.fromEvent ['?'] false true false false).shift = false :=
  ⟨shift_suppression.1 "s-/".data ⟨['/'], false, false, false, false⟩
      (by decide) (by decide),
    shift_suppression.2.1 ['?'] false true false false (by decide)⟩

/-- C8: modifier parsing is case- and order-insensitive: "csm-enter",
"McS-eNTeR" and "mcs-enter" all parse to key "enter" with
ctrl=shift=meta=true and alt=false. -/
theorem parseKey_modifier_insensitive :
    parseKey "csm-enter".data = .success ⟨"enter".data, true, true, false, true⟩ ∧
    parseKey "McS-eNTeR".data = .success ⟨"enter".data, true, true, false, true⟩ ∧
    parseKey "mcs-enter".data = .success ⟨"enter".data, true, true, false, true⟩ := by
  refine ⟨by decide, by decide, by decide⟩

/-- The complement of the space character, as a predicate on characters. -/
def notSpace (c : Char) : Bool := c ≠ ' '

/-- splitFirst with the single-space delimiter is the split at the first
space character. -/
theorem splitFirst_space (t : Str) :
    splitFirst t [' '] =
      (t.takeWhile notSpace,
        match t.dropWhile notSpace with
        | [] => none
        | _ :: r => some r) := by
  induction t with
  | nil => simp [splitFirst, indexOfStr]
  | cons x xs ih =>
    by_cases hx : x = ' '
    · subst hx
      have hs : notSpace ' ' = false := by simp [notSpace]
      simp [splitFirst, indexOfStr, List.isPrefixOf, hs,
        List.takeWhile_cons, List.dropWhile_cons]
    · have hns : notSpace x = true := by simp [notSpace, hx]
      have hpre : ([' '] : Str).isPrefixOf (x :: xs) = false := by
        simp [List.isPrefixOf]
        exact fun hc => absurd hc.symm hx
      rcases hidx : indexOfStr xs [' '] with _ | p
      · simp only [splitFirst, hidx] at ih
        have ih' := Prod.ext_iff.mp ih
        simp only [splitFirst, indexOfStr, hpre, hidx, Bool.false_eq_true,
          if_false, Option.map_none', List.takeWhile_cons, hns, if_true,
          List.dropWhile_cons]
        exact Prod.ext (congrArg (x :: ·) ih'.1) ih'.2
      · simp only [splitFirst, hidx] at ih
        have ih' := Prod.ext_iff.mp ih
        simp only [splitFirst, indexOfStr, hpre, hidx, Bool.false_eq_true,
          if_false, Option.map_some', List.takeWhile_cons, hns, if_true,
          List.dropWhile_cons, List.take_succ_cons, List.length_singleton]
        have hdrop : (x :: xs).drop (p + 1 + 1) = xs.drop (p + 1) := by
          simp [List.drop_succ_cons]
        rw [hdrop]
        exact Prod.ext (congrArg (x :: ·) ih'.1)
          (by simpa using ih'.2)

/-- C5 (amended): for every string node, the parser fails with "Empty
string not allowed" exactly when the string is empty before trimming;
otherwise the string is trimmed and split at the first space character
into (commandId, rest): commandId becomes the command id (it is empty when
the string is whitespace-only, since the emptiness check precedes the
trim), and rest, trimmed, becomes the description, with an absent or
empty-after-trim rest yielding no description. -/
theorem keymapItem_short_form (s : Str) (path : List PathSeg)
    (extend : Option Nat) (h : Heap) :
    (s = [] → keymapItemFromYAML (.str s) path extend h =
      (.error (.parse "Empty string not allowed".data path (some (.str s))), h)) ∧
    (s ≠ [] → keymapItemFromYAML (.str s) path extend h =
      (.ok h.length, h ++ [HObj.command
        ((jsTrim s).takeWhile notSpace)
        (match (jsTrim s).dropWhile notSpace with
         | [] => none
         | _ :: r => if jsTrim r = [] then none else some (jsTrim r))])) := by
  constructor
  · intro hs
    rw [keymapItemFromYAML, if_pos hs]
  · intro hs
    rw [keymapItemFromYAML, if_neg hs]
    simp only [splitFirst_space (jsTrim s), allocH]
    rcases hd : (jsTrim s).dropWhile notSpace with _ | ⟨y, r⟩ <;>
      simp [hd]

/-- C5 (counterexample): the claim says a string node that trims to empty
fails with "empty string not allowed" and that no item with an empty
command id is ever produced; but the emptiness check runs before the trim,
so parsing the one-space string " " succeeds and allocates a KeymapCommand
whose command id is the empty string. -/
theorem keymapItem_short_form_whitespace :
    keymapItemFromYAML (.str [' ']) [] none [] =
      (.ok 0, [HObj.command [] none]) := by
  rw [keymapItemFromYAML]
  rfl

/-- Witness for C5 (amended): "a  b " parses to command id "a" with
description "b"; the empty string errors. -/
theorem keymapItem_short_form_witness :
    keymapItemFromYAML (.str ['a', ' ', ' ', 'b', ' ']) [] none [] =
      (.ok 0, [HObj.command ['a'] (some ['b'])]) ∧
    keymapItemFromYAML (.str []) [] none [] =
      (.error (.parse "Empty string not allowed".data [] (some (.str []))), []) := by
  constructor
  · rw [(keymapItem_short_form ['a', ' ', ' ', 'b', ' '] [] none []).2
      (by decide)]
    rfl
  · exact (keymapItem_short_form [] [] none []).1 rfl

/-- descStep fails on a description value that is neither a string nor
null, leaving the heap untouched. -/
theorem descStep_bad {o : List (Str × YAMLData)} {path : List PathSeg}
    {r : Nat} {h : Heap} {v : YAMLData}
    (hd : lookupY o "description".data = some v)
    (hs : v.isStr = false) (hn : v.isNull = false) :
    descStep o path r h =
      (.error (.parse "Expected string or null".data
        (path ++ [.field "description".data]) (some v)), h) := by
  unfold descStep
  rw [hd]
  cases v <;> simp_all [YAMLData.isStr, YAMLData.isNull]

/-- C4: schema mutual exclusion.  For an object node: if none or more than
one of items/command/file is present the parser throws the error naming all
three alternatives and allocates nothing; with only `command` present, a
non-string command value errors, and an empty command string errors; and a
description value that is neither a string nor null always errors. -/
theorem keymapItem_schema_exclusive (o : List (Str × YAMLData))
    (path : List PathSeg) (extend : Option Nat) (h : Heap) :
    ((cond (hasKeyY o "command".data) 1 0) + (cond (hasKeyY o "file".data) 1 0) +
        (cond (hasKeyY o "items".data) 1 0) ≠ 1 →
      keymapItemFromYAML (.obj o) path extend h =
        (.error (.parse exactlyOneMsg path (some (.obj o))), h)) ∧
    (∀ v, hasKeyY o "command".data = true → hasKeyY o "file".data = false →
      hasKeyY o "items".data = false →
      lookupY o "command".data = some v → v.isStr = false →
      keymapItemFromYAML (.obj o) path extend h =
        (.error (.parse "Expected string".data
          (path ++ [.field "command".data]) (some v)), h)) ∧
    (hasKeyY o "command".data = true → hasKeyY o "file".data = false →
      hasKeyY o "items".data = false →
      lookupY o "command".data = some (.str []) →
      keymapItemFromYAML (.obj o) path extend h =
        (.error (.parse "Command ID cannot be empty".data
          (path ++ [.field "command".data]) (some (.str []))), h)) ∧
    (∀ v, lookupY o "description".data = some v → v.isStr = false →
      v.isNull = false →
      ∃ e h1, keymapItemFromYAML (.obj o) path extend h = (.error e, h1)) := by
  refine ⟨?_, ?_, ?_, ?_⟩
  · intro hc
    simp only [keymapItemFromYAML]
    rw [if_pos hc]
  · intro v hCom hFile hItems hv hvs
    simp only [keymapItemFromYAML, hCom, hFile, hItems, hv, cond_true,
      cond_false]
    rw [if_pos trivial]
    cases v <;> simp_all [YAMLData.isStr]
  · intro hCom hFile hItems hv
    simp only [keymapItemFromYAML, hCom, hFile, hItems, hv, cond_true,
      cond_false]
    rw [if_pos trivial]
    rfl
  · intro v hdesc hvs hvn
    simp only [keymapItemFromYAML]
    by_cases h1 : (cond (hasKeyY o "command".data) 1 0) +
        (cond (hasKeyY o "file".data) 1 0) +
        (cond (hasKeyY o "items".data) 1 0) ≠ 1
    · rw [if_pos h1]
      exact ⟨_, _, rfl⟩
    · rw [if_neg h1]
      by_cases hc : hasKeyY o "command".data = true
      · rw [if_pos hc]
        rcases hlc : lookupY o "command".data with _ | vc
        · exact ⟨_, _, rfl⟩
        · rcases vc with cs | n | b | _ | l | entries
          · dsimp only
            by_cases hcs : cs = []
            · subst hcs
              rw [if_pos rfl]
              exact ⟨_, _, rfl⟩
            · rw [if_neg hcs]
              exact ⟨_, _, descStep_bad hdesc hvs hvn⟩
          all_goals exact ⟨_, _, rfl⟩
      · rw [if_neg hc]
        by_cases hf : hasKeyY o "file".data = true
        · rw [if_pos hf]
          rcases hlf : lookupY o "file".data with _ | vf
          · exact ⟨_, _, rfl⟩
          · rcases vf with fs | n | b | _ | l | entries
            · dsimp only
              by_cases hfs : fs = []
              · subst hfs
                rw [if_pos rfl]
                exact ⟨_, _, rfl⟩
              · rw [if_neg hfs]
                exact ⟨_, _, descStep_bad hdesc hvs hvn⟩
            all_goals exact ⟨_, _, rfl⟩
        · rw [if_neg hf]
          by_cases hg : hasKeyY o "items".data = true
          · rw [if_pos hg]
            rcases hgg : keymapGroupFromYAML o path extend h with ⟨res, h2⟩
            cases res with
            | ok r => exact ⟨_, _, descStep_bad hdesc hvs hvn⟩
            | error e => exact ⟨_, _, rfl⟩
          · rw [if_neg hg]
            exact ⟨_, _, rfl⟩

/-- Witness for C4: concrete objects exercising each conjunct of the schema
rules. -/
theorem keymapItem_schema_exclusive_witness :
    keymapItemFromYAML (.obj []) [] none [] =
      (.error (.parse exactlyOneMsg [] (some (.obj []))), []) ∧
    keymapItemFromYAML (.obj [("command".data, .num 3)]) [] none [] =
      (.error (.parse "Expected string".data [.field "command".data]
        (some (.num 3))), []) ∧
    keymapItemFromYAML (.obj [("command".data, .str [])]) [] none [] =
      (.error (.parse "Command ID cannot be empty".data [.field "command".data]
        (some (.str []))), []) ∧
    ∃ e h1, keymapItemFromYAML
      (.obj [("command".data, .str ['x']), ("description".data, .num 1)])
      [] none [] = (.error e, h1) := by
  refine ⟨?_, ?_, ?_, ?_⟩
  · exact (keymapItem_schema_exclusive [] [] none []).1 (by decide)
  · exact (keymapItem_schema_exclusive [("command".data, .num 3)] [] none
      []).2.1 (.num 3) (by decide) (by decide) (by decide) rfl rfl
  · exact (keymapItem_schema_exclusive [("command".data, .str [])] [] none
      []).2.2.1 (by decide) (by decide) (by decide) rfl
  · exact (keymapItem_schema_exclusive
      [("command".data, .str ['x']), ("description".data, .num 1)] [] none
      []).2.2.2 (.num 1) rfl rfl rfl

/-- The Markdown document "```\nfoo\n```": two fence lines, the first at
offset 0. -/
def mdFenceAtZero : Str :=
  [btick, btick, btick] ++ '\n' :: 'f' :: 'o' :: 'o' :: '\n' ::
    [btick, btick, btick]

/-- C9 (failing input): this document has two line-anchored fence lines, so
per the claim parseKeymapMD should extract the text between them
("\nfoo\n") and parse it as YAML; instead `assert(match.index)` rejects the
truthy-falsy index 0 of the first fence and the call raises AssertionError
before any extraction. -/
theorem parseKeymapMD_fence_at_zero :
    fenceMatchesOf mdFenceAtZero = [(0, 3), (8, 11)] ∧
    parseKeymapMDYaml mdFenceAtZero = .error .assertionFailed :=
  ⟨rfl, rfl⟩

/-- C3: the extend argument is never mutated.  For every parsed YAML value
and every heap of pre-existing group/command/file objects (in particular a
whole tree passed as the extend group and everything reachable from it),
running keymapFromYAML (the body of parseKeymapYAML after the external
YAML-text decode) leaves every pre-existing heap cell exactly as it was,
whether the parse returns or throws, and any returned root is a freshly
allocated object (the result tree is built on copies). -/
theorem keymapFromYAML_preserves_extend (data : YAMLData) (ext : Option Nat)
    (h : Heap) (res : Except PError Nat) (h' : Heap)
    (heq : keymapFromYAML data ext h = (res, h')) (i : Nat)
    (hi : i < h.length) :
    h'[i]? = h[i]? ∧ ∀ r, res = .ok r → h.length ≤ r ∧ r < h'.length := by
  obtain ⟨f1, f2, f3⟩ := keymapFromYAML_frameOk data ext h res h' heq
  exact ⟨f2 i hi, f3⟩

/-- Witness for C3: extending a concrete one-group heap leaves cell 0
untouched and returns the fresh copy at cell 1. -/
theorem keymapFromYAML_preserves_extend_witness :
    ([HObj.group none [], HObj.group none []] : Heap)[0]? =
      ([HObj.group none []] : Heap)[0]? ∧
    ∀ r, (Except.ok 1 : Except PError Nat) = .ok r → 1 ≤ r ∧ r < 2 :=
  keymapFromYAML_preserves_extend (.obj [("items".data, .null)]) (some 0)
    [HObj.group none []] (.ok 1) [HObj.group none [], HObj.group none []]
    (by rw [keymapFromYAML, keymapItemFromYAML, keymapGroupFromYAML,
      processEntries]; rfl) 0 (by decide)

/-- C10: consistency of assignedCommands with find.  For every item whose
groups each contain at most one child per structurally-equal KeyPress
(`wfItem`, the invariant maintained by setChild/removeChild), every key
sequence recorded under a command id c by assignedCommands resolves, under
strict find, to a KeymapCommand whose command id is c. -/
theorem assignedCommands_find (g : KeymapItem) (hwf : wfItem g = true)
    (c : Str) (p : List KeyPress) (l : List (List KeyPress))
    (hl : lookupCmd (assignedCommands g) c = some l) (hp : p ∈ l) :
    ∃ d, g.find p true = some (.command c d) := by
  rw [assignedCommands] at hl
  rcases mem_lookupCmd_fold (walkItem g []) [] c l p hl hp with
    ⟨l0, hl0, _⟩ | ⟨d, hmem⟩
  · simp [lookupCmd] at hl0
  · obtain ⟨q, hpq, hfind⟩ :=
      walkItem_find (sizeOf g) g le_rfl [] (.command c d) p hwf hmem
    simp only [List.nil_append] at hpq
    subst hpq
    exact ⟨d, hfind⟩

/-- Witness for C10: a one-command tree, with the well-formedness and
record-membership hypotheses discharged by evaluation. -/
theorem assignedCommands_find_witness :
    ∃ d, KeymapItem.find
      (.group none [(keyOne, .command "cmd:a".data none)])
      [keyOne] true = some (.command "cmd:a".data d) :=
  assignedCommands_find
    (.group none [(keyOne, .command "cmd:a".data none)])
    (by simp [wfItem, wfKeys, wfChildren, hasKeyIn])
    "cmd:a".data [keyOne] [[keyOne]]
    (by simp [assignedCommands, walkItem, walkChildren, accStep, pushSeq,
      lookupCmd])
    (by simp)
